import Mathlib

/-!
Shallow embedding of the `allegedly` PLC-mirror core (poller boundary dedup,
weekly backfill chunking, week calendar arithmetic, and the postgres loader's
row-level behaviour), together with proofs of the specification's quantified
invariants about those components.

Timestamps (`chrono::DateTime<Utc>`, `Dt` in the source) are modelled as `Int`:
only their ordering and equality are used by the embedded code.
-/

namespace Allegedly

/-- Timestamp, standing in for `chrono::DateTime<chrono::Utc>` (`type Dt`). -/
abbrev Dt := Int

/-- Database primary key for an op (`struct OpKey` in `lib.rs`). -/
structure OpKey where
  did : String
  cid : String
deriving DecidableEq, Repr

/-- A fully-deserialized plc operation (`struct Op` in `lib.rs`).  The opaque
`operation` JSON document is kept as its raw text. -/
structure Op where
  did : String
  cid : String
  created_at : Dt
  nullified : Bool
  operation : String
deriving DecidableEq, Repr

/-- `impl From<&Op> for OpKey` in `lib.rs`. -/
def Op.key (op : Op) : OpKey := ⟨op.did, op.cid⟩

/-- One page of PLC export (`struct ExportPage` in `lib.rs`). -/
structure ExportPage where
  ops : List Op
deriving DecidableEq, Repr

/-- `ExportPage::is_empty` in `lib.rs`. -/
def ExportPage.is_empty (p : ExportPage) : Bool := p.ops.isEmpty

/-- State for removing duplicate ops between PLC export page boundaries
(`struct PageBoundaryState` in `poll.rs`). -/
structure PageBoundaryState where
  /-- The previous page's last timestamp. -/
  last_at : Dt
  /-- The previous page's ops at its last timestamp. -/
  keys_at : List OpKey
deriving DecidableEq, Repr

/-- `PageBoundaryState::capture_nth_last_at`: walk backwards from the
`skips`-th-last op of `page` and push keys while `created_at == last_at`. -/
def capture_nth_last_at (s : PageBoundaryState) (page : ExportPage)
    (last_at : Dt) (skips : Nat) : PageBoundaryState :=
  { s with
    keys_at := s.keys_at ++
      (((page.ops.reverse.drop skips).takeWhile
          (fun op => decide (op.created_at = last_at))).map Op.key) }

/-- `PageBoundaryState::new`: initialize the boundary state from a page,
returning `none` on an empty page. -/
def PageBoundaryState.new (page : ExportPage) : Option PageBoundaryState :=
  page.ops.getLast?.map fun op =>
    capture_nth_last_at ⟨op.created_at, [op.key]⟩ page op.created_at 1

/-- The keys of a list's trailing run of ops whose `createdAt` equals `t`,
collected back-to-front (the order `capture_nth_last_at` pushes them). -/
def trailingKeys (t : Dt) (l : List Op) : List OpKey :=
  (l.reverse.takeWhile (fun op => decide (op.created_at = t))).map Op.key

/-- The dedup-removal pass at the start of `PageBoundaryState::apply_to_next`:
walk ops forward while `created_at == last_at`, removing those whose key is in
`keys_at`; the remainder of the page is untouched.  (The Rust code collects the
matching indices from `take_while`/`filter` and removes them back-to-front,
which produces exactly this list.) -/
def dedupedOps (s : PageBoundaryState) (ops : List Op) : List Op :=
  ((ops.takeWhile (fun op => decide (op.created_at = s.last_at))).filter
      (fun op => !decide (op.key ∈ s.keys_at)))
    ++ ops.dropWhile (fun op => decide (op.created_at = s.last_at))

/-- `PageBoundaryState::apply_to_next`: remove boundary duplicates from the
front of `page` and update the state from its new end.  Returns the updated
state together with the modified page; `none` models the
`assert_eq!(last_at, self.last_at, "time moved backwards on a page")` panic. -/
def PageBoundaryState.apply_to_next (s : PageBoundaryState) (page : ExportPage) :
    Option (PageBoundaryState × ExportPage) :=
  match (dedupedOps s page.ops).getLast? with
  | none => some (s, ⟨dedupedOps s page.ops⟩)
  | some lastOp =>
    if s.last_at < lastOp.created_at then
      some (capture_nth_last_at ⟨lastOp.created_at, [lastOp.key]⟩
              ⟨dedupedOps s page.ops⟩ lastOp.created_at 1,
            ⟨dedupedOps s page.ops⟩)
    else if lastOp.created_at = s.last_at then
      some (capture_nth_last_at ⟨s.last_at, s.keys_at ++ [lastOp.key]⟩
              ⟨dedupedOps s page.ops⟩ lastOp.created_at 1,
            ⟨dedupedOps s page.ops⟩)
    else
      none

/-- Folding `apply_to_next` over a sequence of fetched pages, as the poller's
loop does for every page after the first non-empty one; `none` as soon as one
application hits the dedup assertion. -/
def PageBoundaryState.applyMany (s : PageBoundaryState) :
    List ExportPage → Option PageBoundaryState
  | [] => some s
  | p :: ps =>
    match s.apply_to_next p with
    | none => none
    | some (s', _) => s'.applyMany ps

/-- The dedup-and-emit skeleton of `poll_upstream`'s loop: fold the boundary
state over successive fetched pages, concatenating the ops of each page as it
is forwarded to the destination channel.  `none` models the dedup assertion
panic.  (Empty pages are not sent on the channel, but they contribute no ops
either way, so the emitted stream is the concatenation of the post-dedup
pages.) -/
def pollPages : Option PageBoundaryState → List ExportPage → Option (List Op)
  | _, [] => some []
  | none, p :: ps =>
    (pollPages (PageBoundaryState.new p) ps).map (p.ops ++ ·)
  | some s, p :: ps =>
    match s.apply_to_next p with
    | none => none
    | some (s', p') => (pollPages (some s') ps).map (p'.ops ++ ·)

/-! ### Spec-side definitions for the boundary-dedup soundness statement

These follow the specification's words ("the concatenation of pages minus any
operation whose `OpKey` appeared in the *immediately preceding* page at the
latter's maximum timestamp") rather than the source, to be compared with the
embedded poller. -/

/-- The maximum `createdAt` of a page, if any. -/
def pageMaxAt (p : ExportPage) : Option Dt := (p.ops.map Op.created_at).max?

/-- The keys appearing in a page at its maximum `createdAt` (empty for an
empty page). -/
def boundaryKeys (p : ExportPage) : List OpKey :=
  match pageMaxAt p with
  | none => []
  | some t => (p.ops.filter (fun op => decide (op.created_at = t))).map Op.key

/-- Spec-described output for the pages after the first: each page minus the
operations whose key appeared in the immediately preceding page at that page's
maximum timestamp. -/
def specOutputAux (prev : ExportPage) : List ExportPage → List Op
  | [] => []
  | p :: ps =>
    p.ops.filter (fun op => !decide (op.key ∈ boundaryKeys prev))
      ++ specOutputAux p ps

/-- Spec-described poller output: the concatenation of the pages minus, for
each page, the operations re-emitted from the immediately preceding page's
final timestamp. -/
def specOutput : List ExportPage → List Op
  | [] => []
  | p :: ps => p.ops ++ specOutputAux p ps

/-- Non-decreasing `createdAt` along a list of ops. -/
def CreatedSorted (l : List Op) : Prop :=
  l.Pairwise (fun a b => a.created_at ≤ b.created_at)

/-- All ops of a page sequence, in emission order. -/
def pagesJoin (pages : List ExportPage) : List Op :=
  (pages.map ExportPage.ops).flatten

/-- "No duplicate `(did, cid)` keys other than boundary re-emissions": any two
occurrences of one key in different pages must be in adjacent pages, carry the
same `createdAt`, and sit at the earlier page's maximum `createdAt`. -/
def BoundaryDupOnly (pages : List ExportPage) : Prop :=
  ∀ i j (hi : i < pages.length) (hj : j < pages.length), i < j →
    ∀ op ∈ pages[i].ops, ∀ op' ∈ pages[j].ops, op.key = op'.key →
      j = i + 1 ∧ op.created_at = op'.created_at ∧
        ∀ q ∈ pages[i].ops, q.created_at ≤ op.created_at

/-! ### The full-pages filter (`full_pages` in `lib.rs`)

Modelled on the stream of pages the upstream channel would deliver; the
returned flag is `true` for `Ok(())` (a page of fewer than 900 ops arrived,
output closed cleanly) and `false` for the `Err` of running out of source
material.  The age of the final small page only selects a log line in the
source and does not affect the result. -/

/-- `full_pages`: forward pages of at least 900 ops; consume the first smaller
page and stop with `Ok`; report an error if the input ends first. -/
def full_pages : List ExportPage → List ExportPage × Bool
  | [] => ([], false)
  | p :: ps =>
    if p.ops.length < 900 then ([], true)
    else (p :: (full_pages ps).1, (full_pages ps).2)

/-! ### Weekly bundles (`weekly.rs`) -/

/-- `const WEEK_IN_SECONDS: i64 = 7 * 86_400`. -/
def WEEK_IN_SECONDS : Int := 7 * 86400

/-- `struct Week(i64)`: a unix timestamp labelling a week. -/
structure Week where
  ts : Int
deriving DecidableEq, Repr

/-- `Week::next`. -/
def Week.next (w : Week) : Week := ⟨w.ts + WEEK_IN_SECONDS⟩

/-- `Week::prev`. -/
def Week.prev (w : Week) : Week := ⟨w.ts - WEEK_IN_SECONDS⟩

/-- `Week::nullification_cutoff`, with the wall clock (`Utc::now()`) passed in
as `now`: 73 hours before now. -/
def nullification_cutoff (now : Int) : Int := now - 73 * 3600

/-- `Week::is_immutable`: the week's end is at or before the nullification
cutoff. -/
def Week.is_immutable (now : Int) (w : Week) : Bool :=
  decide (w.next.ts ≤ nullification_cutoff now)

/-- `impl From<Dt> for Week`: truncate the timestamp to a week multiple.  Rust
`i64` division rounds toward zero, which `Int.tdiv` matches. -/
def Week.fromDt (ts : Dt) : Week := ⟨(Int.tdiv ts WEEK_IN_SECONDS) * WEEK_IN_SECONDS⟩

/-- `impl From<Week> for Dt`: exact (`Dt::from_timestamp(ts, 0)`). -/
def dtFromWeek (w : Week) : Dt := w.ts

/-- `std::ops::Bound<Week>`, as consumed by `Week::range`. -/
inductive WeekBound where
  | includedW (w : Week)
  | excludedW (w : Week)
  | unboundedW
deriving DecidableEq, Repr

/-- The `while current <= last` collection loop of `Week::range`. -/
def weekChain (first last : Week) : List Week :=
  if first.ts ≤ last.ts then first :: weekChain first.next last else []
termination_by (last.ts + WEEK_IN_SECONDS - first.ts).toNat
decreasing_by
  simp only [Week.next, WEEK_IN_SECONDS]
  omega

/-- The `last` bound computation of `Week::range`: inclusive ends are kept,
exclusive ends step back a week, and an unbounded end is the week before the
nullification cutoff. -/
def rangeLast (now : Int) : WeekBound → Week
  | .includedW w => w
  | .excludedW w => w.prev
  | .unboundedW => (⟨nullification_cutoff now⟩ : Week).prev

/-- `Week::range`, with the wall clock passed in as `now`; `none` models the
panic on an unbounded start bound.  The `first` bound keeps an inclusive
start and steps an exclusive start forward a week. -/
def Week.range (now : Int) (lo hi : WeekBound) : Option (List Week) :=
  match lo with
  | .unboundedW => none
  | .includedW w => some (weekChain w (rangeLast now hi))
  | .excludedW w => some (weekChain w.next (rangeLast now hi))

/-- `try_chunks(n)` over a line stream: split a list into consecutive chunks
of `n` elements (the last one possibly shorter). -/
def chunksOf (n : Nat) : List α → List (List α)
  | [] => []
  | x :: xs => (x :: xs.take (n - 1)) :: chunksOf n (xs.drop (n - 1))
termination_by l => l.length
decreasing_by
  simp only [List.length_drop, List.length_cons]
  omega

/-- `week_to_pages` from the decompressed bundle content onward: the source
splits the gzip-decoded byte stream into lines and groups the *raw line
strings* into pages of up to 10,000 via `try_chunks(10000)`, sending each chunk
in order.  (The network, gzip decoding, and channel are abstracted away: the
input is the decompressed content as its list of lines, the output the list of
sent pages.)  Note the source fills `ExportPage { ops }` with `Vec<String>`,
not parsed `Op` values. -/
def week_to_pages (lines : List String) : List (List String) :=
  chunksOf 10000 lines

/-! ### The postgres loader (`plc_pg.rs`)

The two tables touched by the loaders, with each SQL statement of
`pages_to_pg` / `backfill_to_pg` modelled row-by-row.  A row of `operations`
is an `Op`; the compound primary key is `(did, cid)`, i.e. `Op.key`. -/

/-- The `operations` and `dids` tables. -/
structure PgDb where
  operations : List Op
  dids : List String
deriving DecidableEq, Repr

/-- Whether `operations` has a row with primary key `k`. -/
def PgDb.hasOpKey (db : PgDb) (k : OpKey) : Bool :=
  db.operations.any (fun row => decide (row.key = k))

/-- `INSERT INTO operations ... ON CONFLICT do nothing`, returning the new
table state and the reported row count. -/
def insertOpRow (db : PgDb) (op : Op) : PgDb × Nat :=
  if db.hasOpKey op.key then (db, 0)
  else ({ db with operations := db.operations ++ [op] }, 1)

/-- `INSERT INTO dids (did) VALUES ($1) ON CONFLICT do nothing`. -/
def insertDidRow (db : PgDb) (did : String) : PgDb × Nat :=
  if did ∈ db.dids then (db, 0)
  else ({ db with dids := db.dids ++ [did] }, 1)

/-- The body of `pages_to_pg`'s per-page transaction: for each op of the page,
the two conflict-ignoring inserts, accumulating the inserted-row counters. -/
def writeOps (db : PgDb) : List Op → PgDb × Nat × Nat
  | [] => (db, 0, 0)
  | op :: rest =>
    let ro := insertOpRow db op
    let rd := insertDidRow ro.1 op.did
    let r := writeOps rd.1 rest
    (r.1, ro.2 + r.2.1, rd.2 + r.2.2)

/-- One received page processed by `pages_to_pg` (one transaction), returning
the database after commit plus the `(ops_inserted, dids_inserted)` increments.
-/
def pages_to_pg_page (db : PgDb) (page : ExportPage) : PgDb × Nat × Nat :=
  writeOps db page.ops

/-- The precondition-or-reset prologue of `backfill_to_pg`: for each of
`operations` and `dids` in turn, either `DELETE FROM` it (`reset`), or count
its rows and panic (`none`) when non-empty. -/
def backfillPrelude (reset : Bool) (db : PgDb) : Option PgDb :=
  if reset then some ⟨[], []⟩
  else if db.operations.length > 0 then none
  else if db.dids.length > 0 then none
  else some db

/-- `backfill_to_pg` at the row level: run the prologue, `COPY` every op of
every page into `operations`, then populate `dids` with
`INSERT INTO dids SELECT distinct did FROM operations`.  (Index and logging
manipulation have no row-level effect; `none` models the panic.) -/
def backfill_to_pg (reset : Bool) (db : PgDb) (pages : List ExportPage) :
    Option PgDb :=
  (backfillPrelude reset db).map fun db' =>
    let ops := db'.operations ++ (pages.map ExportPage.ops).flatten
    ⟨ops, (ops.map Op.did).dedup⟩

end Allegedly

namespace Allegedly

-- Concrete smoke checks against the Rust unit tests in `poll.rs`.

/-- The op used by `poll.rs`'s tests (`valid_op`), at timestamp 1431648000. -/
def validOp : Op := ⟨"did", "cid", 1431648000, false, "{}"⟩

/-- The op used by `poll.rs`'s tests (`next_op`), one second later. -/
def nextOp : Op := ⟨"didnext", "cidnext", 1431648001, false, "{}"⟩

example : PageBoundaryState.new ⟨[]⟩ = none := by decide

example : PageBoundaryState.new ⟨[validOp]⟩ =
    some ⟨1431648000, [⟨"did", "cid"⟩]⟩ := by decide

example :
    (PageBoundaryState.mk 1431648000 [⟨"did", "cid"⟩]).apply_to_next ⟨[validOp]⟩ =
      some (⟨1431648000, [⟨"did", "cid"⟩]⟩, ⟨[]⟩) := by decide

example :
    (PageBoundaryState.mk 1431648000 [⟨"did", "cid"⟩]).apply_to_next
        ⟨[validOp, { validOp with cid := "cid2" }, nextOp]⟩ =
      some (⟨1431648001, [⟨"didnext", "cidnext"⟩]⟩,
            ⟨[{ validOp with cid := "cid2" }, nextOp]⟩) := by decide

end Allegedly

namespace Allegedly

/-! ## C4: the full-pages filter contract -/

/-- **C4.** `full_pages` forwards, in arrival order, exactly the received
pages of at least 900 ops (the prefix of the input before the first smaller
page); the first smaller page is consumed without being forwarded and makes
the filter return `Ok` (`true`); the filter errors (`false`) iff the input
ends before any such small page arrives. -/
theorem full_pages_contract (pages : List ExportPage) :
    (full_pages pages).1
        = pages.takeWhile (fun p => decide (900 ≤ p.ops.length)) ∧
    ((full_pages pages).2 = true ↔ ∃ p ∈ pages, p.ops.length < 900) := by
  induction pages with
  | nil => simp [full_pages]
  | cons p ps ih =>
    by_cases h : p.ops.length < 900
    · have hb : ¬ 900 ≤ p.ops.length := by omega
      constructor
      · simp [full_pages, h, List.takeWhile_cons, hb]
      · simp only [full_pages, if_pos h, List.mem_cons]
        exact ⟨fun _ => ⟨p, Or.inl rfl, h⟩, fun _ => trivial⟩
    · have hb : 900 ≤ p.ops.length := by omega
      constructor
      · simp [full_pages, if_neg h, List.takeWhile_cons, hb, ih.1]
      · simp only [full_pages, if_neg h, List.mem_cons]
        rw [ih.2]
        constructor
        · rintro ⟨q, hq, hqlt⟩; exact ⟨q, Or.inr hq, hqlt⟩
        · rintro ⟨q, hq | hq, hqlt⟩
          · subst hq; omega
          · exact ⟨q, hq, hqlt⟩

/-! ## C7: the backfill precondition -/

/-- **C7.** `backfill_to_pg` with `reset = false` panics exactly when the
`operations` or `dids` table starts non-empty; with `reset = true` it never
panics and first empties both tables. -/
theorem backfill_to_pg_precondition (db : PgDb) (pages : List ExportPage) :
    (backfill_to_pg false db pages = none ↔
        db.operations ≠ [] ∨ db.dids ≠ []) ∧
    backfillPrelude true db = some ⟨[], []⟩ ∧
    backfill_to_pg true db pages ≠ none := by
  refine ⟨?_, rfl, ?_⟩
  · unfold backfill_to_pg backfillPrelude
    cases hops : db.operations with
    | nil =>
      cases hdids : db.dids with
      | nil => simp
      | cons d ds => simp
    | cons o os => simp
  · unfold backfill_to_pg backfillPrelude
    simp

/-! ## C8: the week round-trip (corrected) -/

/-- **C8 counterexample.** Rust's `i64` division truncates toward zero, so at
the (legal) negative timestamp `-1` the truncated week is `0`, which is not
`≤ -1` and differs from the floor-rounded multiple of 604800. -/
theorem week_roundtrip_counterexample :
    (Week.fromDt (-1)).ts = 0 ∧
    ¬ (Week.fromDt (-1)).ts ≤ (-1 : Int) ∧
    dtFromWeek (Week.fromDt (-1)) ≠ (Int.fdiv (-1) 604800) * 604800 := by
  refine ⟨rfl, by decide, by decide⟩

/-- **C8 (amended).** For every non-negative timestamp `t`, `Week::from(t)`
is at most `t` and round-trips through `Dt::from` to `t` rounded down to the
enclosing multiple of 604,800 seconds (floor division), with `Dt::from(Week)`
exact. -/
theorem week_roundtrip_nonneg (t : Dt) (ht : 0 ≤ t) :
    (Week.fromDt t).ts ≤ t ∧
    dtFromWeek (Week.fromDt t)
        = (Int.fdiv t WEEK_IN_SECONDS) * WEEK_IN_SECONDS ∧
    ∀ w : Week, dtFromWeek w = w.ts := by
  have hW : (0 : Int) ≤ WEEK_IN_SECONDS := by decide
  have htdiv : Int.tdiv t WEEK_IN_SECONDS = t / WEEK_IN_SECONDS :=
    Int.tdiv_eq_ediv ht hW
  have hfdiv : Int.fdiv t WEEK_IN_SECONDS = t / WEEK_IN_SECONDS :=
    Int.fdiv_eq_ediv t hW
  refine ⟨?_, ?_, fun _ => rfl⟩
  · show Int.tdiv t WEEK_IN_SECONDS * WEEK_IN_SECONDS ≤ t
    rw [htdiv]
    exact Int.ediv_mul_le t (by decide)
  · show Int.tdiv t WEEK_IN_SECONDS * WEEK_IN_SECONDS = _
    rw [htdiv, hfdiv]

/-- **C8 witness.** The amended round-trip at the concrete timestamp
1431648000 (2015-05-15T00:00:00Z). -/
theorem week_roundtrip_nonneg_witness :
    (Week.fromDt 1431648000).ts ≤ 1431648000 ∧
    dtFromWeek (Week.fromDt 1431648000)
        = (Int.fdiv 1431648000 WEEK_IN_SECONDS) * WEEK_IN_SECONDS ∧
    ∀ w : Week, dtFromWeek w = w.ts :=
  week_roundtrip_nonneg 1431648000 (by decide)

end Allegedly

namespace Allegedly

/-! ## Helper lemmas about the boundary state -/

theorem reverse_eq_cons_of_getLast {α : Type} {l : List α} {a : α}
    (h : l.getLast? = some a) : ∃ r, l.reverse = a :: r := by
  cases hr : l.reverse with
  | nil =>
    rw [List.reverse_eq_nil_iff] at hr
    subst hr
    simp at h
  | cons b r =>
    refine ⟨r, ?_⟩
    have hb : l.reverse.head? = some b := by rw [hr]; rfl
    rw [List.head?_reverse, h] at hb
    have hab : a = b := by injection hb
    rw [hab]

@[simp] theorem capture_last_at (s : PageBoundaryState) (page : ExportPage)
    (t : Dt) (k : Nat) : (capture_nth_last_at s page t k).last_at = s.last_at :=
  rfl

theorem capture_keys_eq {kept : List Op} {lastOp : Op}
    (h : kept.getLast? = some lastOp) (ks : List OpKey) (x : Dt) :
    (capture_nth_last_at ⟨x, ks ++ [lastOp.key]⟩ ⟨kept⟩
        lastOp.created_at 1).keys_at
      = ks ++ trailingKeys lastOp.created_at kept := by
  obtain ⟨r, hr⟩ := reverse_eq_cons_of_getLast h
  simp [capture_nth_last_at, trailingKeys, hr, List.takeWhile_cons]

theorem new_eq_some {ops : List Op} {lst : Op} (h : ops.getLast? = some lst) :
    PageBoundaryState.new ⟨ops⟩
      = some ⟨lst.created_at, trailingKeys lst.created_at ops⟩ := by
  obtain ⟨r, hr⟩ := reverse_eq_cons_of_getLast h
  unfold PageBoundaryState.new capture_nth_last_at
  rw [h, Option.map_some']
  simp [trailingKeys, hr, List.takeWhile_cons]

end Allegedly

namespace Allegedly

/-! ## C10: `PageBoundaryState::new` characterization -/

/-- **C10.** `PageBoundaryState::new` returns `None` exactly on a page with no
operations; on a non-empty page the returned state's `last_at` is the final
op's `createdAt` and `keys_at` holds exactly the keys of the trailing run of
ops sharing that final `createdAt`. -/
theorem boundary_state_new_characterization (page : ExportPage) :
    (PageBoundaryState.new page = none ↔ page.ops = []) ∧
    ∀ s, PageBoundaryState.new page = some s →
      ∀ lst, page.ops.getLast? = some lst →
        s.last_at = lst.created_at ∧
        s.keys_at = trailingKeys lst.created_at page.ops ∧
        ∀ k, k ∈ s.keys_at ↔
          k ∈ ((page.ops.reverse.takeWhile
                  (fun op => decide (op.created_at = lst.created_at))).reverse.map
                Op.key) := by
  constructor
  · constructor
    · intro h
      cases hlast : page.ops.getLast? with
      | none => exact List.getLast?_eq_none_iff.mp hlast
      | some lst =>
        rw [show page = ⟨page.ops⟩ from rfl, new_eq_some hlast] at h
        cases h
    · intro h
      simp [PageBoundaryState.new, h]
  · intro s hs lst hlast
    rw [show page = ⟨page.ops⟩ from rfl, new_eq_some hlast] at hs
    cases hs
    refine ⟨rfl, rfl, fun k => ?_⟩
    simp [trailingKeys, List.mem_reverse]

/-- **C10 witness.** The characterization applied to the one-op page from the
source's `test_boundary_new_one_op` test. -/
theorem boundary_state_new_characterization_witness :
    (PageBoundaryState.mk 1431648000 [⟨"did", "cid"⟩]).last_at
        = validOp.created_at ∧
    (PageBoundaryState.mk 1431648000 [⟨"did", "cid"⟩]).keys_at
        = trailingKeys validOp.created_at [validOp] ∧
    ((⟨"did", "cid"⟩ : OpKey)
        ∈ (PageBoundaryState.mk 1431648000 [⟨"did", "cid"⟩]).keys_at ↔
      (⟨"did", "cid"⟩ : OpKey)
        ∈ ((([validOp] : List Op).reverse.takeWhile
              (fun op => decide (op.created_at = validOp.created_at))).reverse.map
            Op.key)) :=
  have h := (boundary_state_new_characterization ⟨[validOp]⟩).2
    ⟨1431648000, [⟨"did", "cid"⟩]⟩ (by decide) validOp (by decide)
  ⟨h.1, h.2.1, h.2.2 ⟨"did", "cid"⟩⟩

/-! ## C2: dedup completeness -/

/-- **C2.** Any op of the page whose `createdAt` equals the state's `last_at`
but whose key is not in `keys_at` survives the dedup removal (with
multiplicity), and every normal return of `apply_to_next` emits exactly the
dedup-surviving page, hence emits that op. -/
theorem dedup_completeness (s : PageBoundaryState) (page : ExportPage)
    (op : Op) (hmem : op ∈ page.ops) (_hat : op.created_at = s.last_at)
    (hkey : op.key ∉ s.keys_at) :
    List.count op (dedupedOps s page.ops) = List.count op page.ops ∧
    op ∈ dedupedOps s page.ops ∧
    ∀ r, s.apply_to_next page = some r → r.2.ops = dedupedOps s page.ops := by
  have hp : (fun o => !decide (o.key ∈ s.keys_at)) op = true := by
    simp [hkey]
  have hcount : List.count op (dedupedOps s page.ops)
      = List.count op page.ops := by
    unfold dedupedOps
    rw [List.count_append,
      List.count_filter (p := fun (o : Op) => !decide (o.key ∈ s.keys_at)) hp,
      ← List.count_append, List.takeWhile_append_dropWhile]
  refine ⟨hcount, ?_, ?_⟩
  · rw [← List.count_pos_iff, hcount, List.count_pos_iff]
    exact hmem
  · intro r hr
    unfold PageBoundaryState.apply_to_next at hr
    split at hr
    · cases hr; rfl
    · split at hr
      · cases hr; rfl
      · split at hr
        · cases hr; rfl
        · cases hr

/-- **C2 witness.** Dedup completeness at a concrete state and page: a fresh
key at the boundary timestamp is kept. -/
theorem dedup_completeness_witness :
    List.count (Op.mk "d" "c2" 5 false "{}")
        (dedupedOps ⟨5, [⟨"d", "c"⟩]⟩ [Op.mk "d" "c2" 5 false "{}"])
      = List.count (Op.mk "d" "c2" 5 false "{}") [Op.mk "d" "c2" 5 false "{}"] ∧
    Op.mk "d" "c2" 5 false "{}"
        ∈ dedupedOps ⟨5, [⟨"d", "c"⟩]⟩ [Op.mk "d" "c2" 5 false "{}"] ∧
    [Op.mk "d" "c2" 5 false "{}"]
        = dedupedOps ⟨5, [⟨"d", "c"⟩]⟩ [Op.mk "d" "c2" 5 false "{}"] :=
  have h := dedup_completeness ⟨5, [⟨"d", "c"⟩]⟩ ⟨[Op.mk "d" "c2" 5 false "{}"]⟩
    (Op.mk "d" "c2" 5 false "{}") (by decide) (by decide) (by decide)
  ⟨h.1, h.2.1,
    h.2.2 (⟨5, [⟨"d", "c"⟩, ⟨"d", "c2"⟩]⟩, ⟨[Op.mk "d" "c2" 5 false "{}"]⟩)
      (by decide)⟩

/-! ## C3: monotone progress -/

theorem apply_to_next_mono (s : PageBoundaryState) (page : ExportPage) :
    ∀ r, s.apply_to_next page = some r → s.last_at ≤ r.1.last_at := by
  intro r hr
  unfold PageBoundaryState.apply_to_next at hr
  split at hr
  · cases hr; exact le_refl _
  · rename_i lastOp hlast
    split at hr
    · rename_i hlt
      cases hr
      simpa using le_of_lt hlt
    · split at hr
      · rename_i heq
        cases hr
        simp
      · cases hr

/-- **C3.** Across any sequence of `apply_to_next` calls that return
normally, `last_at` never decreases; and when a page's final remaining op
(after dedup removal) has `createdAt` strictly below the current `last_at`,
`apply_to_next` hits the assertion (returns `none`) instead of updating
state. -/
theorem monotone_progress (s : PageBoundaryState) (page : ExportPage) :
    (∀ pages s', s.applyMany pages = some s' → s.last_at ≤ s'.last_at) ∧
    (∀ lst, (dedupedOps s page.ops).getLast? = some lst →
        lst.created_at < s.last_at → s.apply_to_next page = none) := by
  constructor
  · intro pages
    induction pages generalizing s with
    | nil =>
      intro s' h
      unfold PageBoundaryState.applyMany at h
      cases h
      exact le_refl _
    | cons p ps ih =>
      intro s' h
      unfold PageBoundaryState.applyMany at h
      cases happ : s.apply_to_next p with
      | none => rw [happ] at h; cases h
      | some r =>
        rw [happ] at h
        exact le_trans (apply_to_next_mono s p r happ) (ih r.1 s' h)
  · intro lst hlast hlt
    unfold PageBoundaryState.apply_to_next
    split
    · rename_i heq
      rw [hlast] at heq
      cases heq
    · rename_i lastOp heq
      rw [hlast] at heq
      injection heq with heq'
      subst heq'
      have h1 : ¬ s.last_at < lst.created_at := not_lt.mpr hlt.le
      have h2 : ¬ lst.created_at = s.last_at := ne_of_lt hlt
      rw [if_neg h1, if_neg h2]

/-- **C3 witness.** Monotonicity over a concrete two-page sequence, and the
assertion firing on a concrete page whose remaining op moves time backwards.
-/
theorem monotone_progress_witness :
    (5 : Int) ≤ (PageBoundaryState.mk 6 [⟨"d", "c2"⟩]).last_at ∧
    (PageBoundaryState.mk 5 [⟨"d", "c"⟩]).apply_to_next
        ⟨[Op.mk "e" "f" 3 false "{}"]⟩ = none :=
  ⟨(monotone_progress ⟨5, [⟨"d", "c"⟩]⟩ ⟨[]⟩).1
      [⟨[Op.mk "d" "c2" 6 false "{}"]⟩] ⟨6, [⟨"d", "c2"⟩]⟩ (by decide),
   (monotone_progress ⟨5, [⟨"d", "c"⟩]⟩ ⟨[Op.mk "e" "f" 3 false "{}"]⟩).2
      (Op.mk "e" "f" 3 false "{}") (by decide) (by decide)⟩

end Allegedly

namespace Allegedly

/-! ## C5: weekly bundle worker pages -/

/-- **C5 evidence.** `week_to_pages` forwards the decompressed bundle's raw
line strings, grouped in order into chunks, without parsing them into `Op`
values: lines that are not operation JSON documents are forwarded verbatim.
(The crate's own `ExportPage` declares `ops: Vec<Op>`, so the loop filling it
with `Vec<String>` contradicts the declared data model.) -/
theorem week_to_pages_raw_lines :
    week_to_pages ["not an operation", "also not an operation"]
      = [["not an operation", "also not an operation"]] := by
  rw [week_to_pages, chunksOf.eq_def]
  dsimp only
  rw [List.take_of_length_le (by simp), List.drop_of_length_le (by simp),
    chunksOf.eq_def]

/-! ## C9: `Week::range` semantics -/

theorem weekChain_mem (a b w : Week) :
    w ∈ weekChain a b ↔
      ∃ k : Nat, w.ts = a.ts + k * WEEK_IN_SECONDS ∧ w.ts ≤ b.ts := by
  by_cases h : a.ts ≤ b.ts
  · rw [weekChain, if_pos h]
    have ih := weekChain_mem a.next b w
    constructor
    · intro hw
      rcases List.mem_cons.mp hw with hw | hw
      · refine ⟨0, by simp [hw], ?_⟩
        rw [hw]
        exact h
      · obtain ⟨k, hk, hle⟩ := ih.mp hw
        refine ⟨k + 1, ?_, hle⟩
        simp only [Week.next, WEEK_IN_SECONDS] at hk ⊢
        push_cast at hk ⊢
        omega
    · rintro ⟨k, hk, hle⟩
      cases k with
      | zero =>
        apply List.mem_cons.mpr
        left
        cases w
        cases a
        simp only [WEEK_IN_SECONDS] at hk
        simp only [Week.mk.injEq] at hk ⊢
        omega
      | succ m =>
        apply List.mem_cons.mpr
        right
        apply ih.mpr
        refine ⟨m, ?_, hle⟩
        simp only [Week.next, WEEK_IN_SECONDS] at hk ⊢
        push_cast at hk ⊢
        omega
  · rw [weekChain, if_neg h]
    simp only [List.not_mem_nil, false_iff]
    rintro ⟨k, hk, hle⟩
    simp only [WEEK_IN_SECONDS] at hk
    omega
termination_by ((b.ts + WEEK_IN_SECONDS) - a.ts).toNat
decreasing_by
  simp only [Week.next, WEEK_IN_SECONDS]
  omega

theorem weekChain_eq_range (a b : Week) :
    ∃ n : Nat, weekChain a b
      = (List.range n).map (fun k => ⟨a.ts + k * WEEK_IN_SECONDS⟩) := by
  by_cases h : a.ts ≤ b.ts
  · obtain ⟨m, hm⟩ := weekChain_eq_range a.next b
    refine ⟨m + 1, ?_⟩
    rw [weekChain, if_pos h, hm, List.range_succ_eq_map, List.map_cons,
      List.map_map]
    congr 1
    · cases a
      simp
    · apply List.map_congr_left
      intro k _
      simp only [Function.comp_apply, Week.next, WEEK_IN_SECONDS,
        Week.mk.injEq]
      push_cast
      ring
  · exact ⟨0, by rw [weekChain, if_neg h]; simp⟩
termination_by ((b.ts + WEEK_IN_SECONDS) - a.ts).toNat
decreasing_by
  simp only [Week.next, WEEK_IN_SECONDS]
  omega

end Allegedly

namespace Allegedly

/-- **C9.** `Week::range` with a defined, week-aligned start bound: with an
unbounded end it returns consecutive weeks from the start, every returned week
is immutable, and every immutable week on the start's grid is returned;
`Included`/`Excluded` bounds follow the standard half-open interval
convention. -/
theorem week_range_semantics (now : Int) (a b : Week)
    (ha : a.ts % WEEK_IN_SECONDS = 0) (hb : b.ts % WEEK_IN_SECONDS = 0) :
    (∃ n, (Week.range now (.includedW a) .unboundedW).getD []
        = (List.range n).map (fun k => ⟨a.ts + k * WEEK_IN_SECONDS⟩)) ∧
    (∀ w ∈ (Week.range now (.includedW a) .unboundedW).getD [],
        Week.is_immutable now w = true) ∧
    (∀ k : Nat, Week.is_immutable now ⟨a.ts + k * WEEK_IN_SECONDS⟩ = true →
        (⟨a.ts + k * WEEK_IN_SECONDS⟩ : Week)
          ∈ (Week.range now (.includedW a) .unboundedW).getD []) ∧
    (∀ k : Nat, (⟨a.ts + k * WEEK_IN_SECONDS⟩ : Week)
          ∈ (Week.range now (.includedW a) (.excludedW b)).getD []
        ↔ a.ts + k * WEEK_IN_SECONDS < b.ts) ∧
    (∀ k : Nat, (⟨a.ts + k * WEEK_IN_SECONDS⟩ : Week)
          ∈ (Week.range now (.includedW a) (.includedW b)).getD []
        ↔ a.ts + k * WEEK_IN_SECONDS ≤ b.ts) ∧
    (∀ k : Nat, (⟨a.ts + k * WEEK_IN_SECONDS⟩ : Week)
          ∈ (Week.range now (.excludedW a) .unboundedW).getD []
        ↔ 1 ≤ k ∧
          Week.is_immutable now ⟨a.ts + k * WEEK_IN_SECONDS⟩ = true) := by
  have hcut : ∀ hi, (Week.range now (.includedW a) hi).getD []
      = weekChain a (rangeLast now hi) := fun _ => rfl
  have hcut' : ∀ hi, (Week.range now (.excludedW a) hi).getD []
      = weekChain a.next (rangeLast now hi) := fun _ => rfl
  refine ⟨?_, ?_, ?_, ?_, ?_, ?_⟩
  · rw [hcut]
    exact weekChain_eq_range a _
  · intro w hw
    rw [hcut] at hw
    obtain ⟨k, hk, hle⟩ := (weekChain_mem _ _ _).mp hw
    simp only [rangeLast, Week.prev, nullification_cutoff,
      WEEK_IN_SECONDS] at hle
    simp only [Week.is_immutable, Week.next, nullification_cutoff,
      WEEK_IN_SECONDS, decide_eq_true_eq]
    omega
  · intro k hk
    rw [hcut]
    apply (weekChain_mem _ _ _).mpr
    refine ⟨k, rfl, ?_⟩
    simp only [Week.is_immutable, Week.next, nullification_cutoff,
      WEEK_IN_SECONDS, decide_eq_true_eq] at hk
    simp only [rangeLast, Week.prev, nullification_cutoff, WEEK_IN_SECONDS]
    omega
  · intro k
    rw [hcut, weekChain_mem]
    simp only [rangeLast, Week.prev, WEEK_IN_SECONDS] at *
    constructor
    · rintro ⟨m, hm, hle⟩
      omega
    · intro hlt
      refine ⟨k, rfl, ?_⟩
      omega
  · intro k
    rw [hcut, weekChain_mem]
    simp only [rangeLast, WEEK_IN_SECONDS] at *
    constructor
    · rintro ⟨m, hm, hle⟩
      omega
    · intro hle
      exact ⟨k, rfl, hle⟩
  · intro k
    rw [hcut', weekChain_mem]
    simp only [rangeLast, Week.is_immutable, Week.next, Week.prev,
      nullification_cutoff, WEEK_IN_SECONDS, decide_eq_true_eq]
    constructor
    · rintro ⟨m, hm, hle⟩
      omega
    · rintro ⟨hk1, hk2⟩
      refine ⟨k - 1, ?_, ?_⟩
      · push_cast
        omega
      · omega

/-- **C9 witness.** The closed-interval convention at a concrete aligned pair
of weeks: week 0 is in `range(week 0 ..= week 604800)`. -/
theorem week_range_semantics_witness :
    ((⟨(0 : Int) + (0 : Nat) * WEEK_IN_SECONDS⟩ : Week)
        ∈ (Week.range 10000000 (.includedW ⟨0⟩) (.includedW ⟨604800⟩)).getD []
      ↔ (0 : Int) + (0 : Nat) * WEEK_IN_SECONDS ≤ (604800 : Int)) :=
  (week_range_semantics 10000000 ⟨0⟩ ⟨604800⟩ (by decide)
    (by decide)).2.2.2.2.1 0

end Allegedly

namespace Allegedly

/-! ## C6: steady-state write idempotence -/

theorem hasOpKey_true_iff (db : PgDb) (k : OpKey) :
    db.hasOpKey k = true ↔ k ∈ (db.operations.map Op.key).toFinset := by
  unfold PgDb.hasOpKey
  rw [List.any_eq_true]
  simp only [decide_eq_true_eq, List.mem_toFinset, List.mem_map]

theorem insertOpRow_keyFinset (db : PgDb) (op : Op) :
    ((insertOpRow db op).1.operations.map Op.key).toFinset
      = insert op.key (db.operations.map Op.key).toFinset := by
  unfold insertOpRow
  by_cases h : db.hasOpKey op.key = true
  · rw [if_pos h]
    exact ((Finset.insert_eq_self).mpr ((hasOpKey_true_iff db op.key).mp h)).symm
  · rw [if_neg h]
    ext x
    simp only [List.mem_toFinset, List.mem_map, List.mem_append,
      List.mem_singleton, Finset.mem_insert]
    constructor
    · rintro ⟨row, hrow | hrow, hkey⟩
      · exact Or.inr ⟨row, hrow, hkey⟩
      · subst hrow
        exact Or.inl hkey.symm
    · rintro (hx | ⟨row, hrow, hkey⟩)
      · exact ⟨op, Or.inr rfl, hx.symm⟩
      · exact ⟨row, Or.inl hrow, hkey⟩

theorem insertOpRow_dids (db : PgDb) (op : Op) :
    (insertOpRow db op).1.dids = db.dids := by
  unfold insertOpRow
  split <;> rfl

theorem insertDidRow_operations (db : PgDb) (d : String) :
    (insertDidRow db d).1.operations = db.operations := by
  unfold insertDidRow
  split <;> rfl

theorem insertDidRow_didFinset (db : PgDb) (d : String) :
    (insertDidRow db d).1.dids.toFinset = insert d db.dids.toFinset := by
  unfold insertDidRow
  by_cases h : d ∈ db.dids
  · rw [if_pos h]
    exact ((Finset.insert_eq_self).mpr (List.mem_toFinset.mpr h)).symm
  · rw [if_neg h]
    ext x
    simp only [List.mem_toFinset, List.mem_append, List.mem_singleton,
      Finset.mem_insert]
    exact or_comm

theorem insertDidRow_count_congr (db : PgDb) (op : Op) :
    (insertDidRow (insertOpRow db op).1 op.did).2
      = (insertDidRow db op.did).2 := by
  unfold insertDidRow
  rw [insertOpRow_dids]
  by_cases hmem : op.did ∈ db.dids
  · rw [if_pos hmem, if_pos hmem]
  · rw [if_neg hmem, if_neg hmem]

theorem writeOps_keyFinset (db : PgDb) (ops : List Op) :
    ((writeOps db ops).1.operations.map Op.key).toFinset
        = (db.operations.map Op.key).toFinset ∪ (ops.map Op.key).toFinset ∧
    (writeOps db ops).1.dids.toFinset
        = db.dids.toFinset ∪ (ops.map Op.did).toFinset := by
  induction ops generalizing db with
  | nil => simp [writeOps]
  | cons op rest ih =>
    have hops2 : ((insertDidRow (insertOpRow db op).1 op.did).1.operations.map
          Op.key).toFinset
        = insert op.key (db.operations.map Op.key).toFinset := by
      rw [insertDidRow_operations, insertOpRow_keyFinset]
    have hdids2 : (insertDidRow (insertOpRow db op).1 op.did).1.dids.toFinset
        = insert op.did db.dids.toFinset := by
      rw [insertDidRow_didFinset, insertOpRow_dids]
    constructor
    · show ((writeOps (insertDidRow (insertOpRow db op).1 op.did).1
          rest).1.operations.map Op.key).toFinset = _
      rw [(ih _).1, hops2]
      simp [Finset.insert_union, Finset.union_insert]
    · show (writeOps (insertDidRow (insertOpRow db op).1 op.did).1
          rest).1.dids.toFinset = _
      rw [(ih _).2, hdids2]
      simp [Finset.insert_union, Finset.union_insert]

theorem writeOps_counts (db : PgDb) (ops : List Op) :
    ((writeOps db ops).1.operations.map Op.key).toFinset.card
        = (db.operations.map Op.key).toFinset.card + (writeOps db ops).2.1 ∧
    (writeOps db ops).1.dids.toFinset.card
        = db.dids.toFinset.card + (writeOps db ops).2.2 := by
  induction ops generalizing db with
  | nil => simp [writeOps]
  | cons op rest ih =>
    have hops2 : ((insertDidRow (insertOpRow db op).1 op.did).1.operations.map
          Op.key).toFinset
        = insert op.key (db.operations.map Op.key).toFinset := by
      rw [insertDidRow_operations, insertOpRow_keyFinset]
    have hdids2 : (insertDidRow (insertOpRow db op).1 op.did).1.dids.toFinset
        = insert op.did db.dids.toFinset := by
      rw [insertDidRow_didFinset, insertOpRow_dids]
    have hkeycard : (insert op.key (db.operations.map Op.key).toFinset).card
        = (db.operations.map Op.key).toFinset.card + (insertOpRow db op).2 := by
      unfold insertOpRow
      by_cases h : db.hasOpKey op.key = true
      · rw [if_pos h,
          Finset.insert_eq_self.mpr ((hasOpKey_true_iff db op.key).mp h)]
        rfl
      · rw [if_neg h, Finset.card_insert_of_not_mem
          (fun hmem => h ((hasOpKey_true_iff db op.key).mpr hmem))]
    have hdidcard : (insert op.did db.dids.toFinset).card
        = db.dids.toFinset.card
            + (insertDidRow (insertOpRow db op).1 op.did).2 := by
      rw [insertDidRow_count_congr]
      unfold insertDidRow
      by_cases h : op.did ∈ db.dids
      · rw [if_pos h, Finset.insert_eq_self.mpr (List.mem_toFinset.mpr h)]
        rfl
      · rw [if_neg h, Finset.card_insert_of_not_mem
          (fun hmem => h (List.mem_toFinset.mp hmem))]
    constructor
    · show ((writeOps (insertDidRow (insertOpRow db op).1 op.did).1
            rest).1.operations.map Op.key).toFinset.card
        = _ + ((insertOpRow db op).2 + _)
      rw [(ih _).1, hops2, hkeycard]
      omega
    · show (writeOps (insertDidRow (insertOpRow db op).1 op.did).1
            rest).1.dids.toFinset.card
        = _ + ((insertDidRow (insertOpRow db op).1 op.did).2 + _)
      rw [(ih _).2, hdids2, hdidcard]
      omega

theorem writeOps_nochange (db : PgDb) (ops : List Op)
    (hk : ∀ op ∈ ops, db.hasOpKey op.key = true)
    (hd : ∀ op ∈ ops, op.did ∈ db.dids) :
    writeOps db ops = (db, 0, 0) := by
  induction ops with
  | nil => rfl
  | cons op rest ih =>
    have h1 : insertOpRow db op = (db, 0) := by
      unfold insertOpRow
      rw [if_pos (hk op (List.mem_cons_self op rest))]
    have h2 : insertDidRow db op.did = (db, 0) := by
      unfold insertDidRow
      rw [if_pos (hd op (List.mem_cons_self op rest))]
    show ((writeOps (insertDidRow (insertOpRow db op).1 op.did).1 rest).1,
        (insertOpRow db op).2 + _,
        (insertDidRow (insertOpRow db op).1 op.did).2 + _) = (db, 0, 0)
    rw [h1, h2,
      ih (fun q hq => hk q (List.mem_cons_of_mem op hq))
        (fun q hq => hd q (List.mem_cons_of_mem op hq))]
    rfl

end Allegedly

namespace Allegedly

/-- **C6.** Replaying the identical page through the steady-state writer's
conflict-ignoring per-page transaction changes nothing: the second play leaves
both tables exactly as after the first and reports zero inserted rows, while
the first play's reported row counts equal the number of page keys (resp.
dids) not already present. -/
theorem pages_to_pg_idempotent (db : PgDb) (page : ExportPage) :
    (pages_to_pg_page (pages_to_pg_page db page).1 page).1
        = (pages_to_pg_page db page).1 ∧
    (pages_to_pg_page (pages_to_pg_page db page).1 page).2.1 = 0 ∧
    (pages_to_pg_page (pages_to_pg_page db page).1 page).2.2 = 0 ∧
    (pages_to_pg_page db page).2.1
        = ((page.ops.map Op.key).toFinset.filter
            (fun k => db.hasOpKey k = false)).card ∧
    (pages_to_pg_page db page).2.2
        = ((page.ops.map Op.did).toFinset.filter
            (fun d => decide (d ∈ db.dids) = false)).card := by
  have hchar := writeOps_keyFinset db page.ops
  have hcounts := writeOps_counts db page.ops
  have hreplay : writeOps (writeOps db page.ops).1 page.ops
      = ((writeOps db page.ops).1, 0, 0) := by
    apply writeOps_nochange
    · intro op hop
      rw [hasOpKey_true_iff, hchar.1]
      exact Finset.mem_union_right _
        (List.mem_toFinset.mpr (List.mem_map_of_mem Op.key hop))
    · intro op hop
      rw [← List.mem_toFinset, hchar.2]
      exact Finset.mem_union_right _
        (List.mem_toFinset.mpr (List.mem_map_of_mem Op.did hop))
  refine ⟨?_, ?_, ?_, ?_, ?_⟩
  · show (writeOps (writeOps db page.ops).1 page.ops).1 = _
    rw [hreplay]
    rfl
  · show (writeOps (writeOps db page.ops).1 page.ops).2.1 = 0
    rw [hreplay]
  · show (writeOps (writeOps db page.ops).1 page.ops).2.2 = 0
    rw [hreplay]
  · have hdisj : Disjoint (db.operations.map Op.key).toFinset
        ((page.ops.map Op.key).toFinset.filter
          (fun k => db.hasOpKey k = false)) := by
      rw [Finset.disjoint_right]
      intro k hk hk'
      rcases Finset.mem_filter.mp hk with ⟨_, hfalse⟩
      rw [(hasOpKey_true_iff db k).mpr hk'] at hfalse
      cases hfalse
    have hunion : (db.operations.map Op.key).toFinset
          ∪ (page.ops.map Op.key).toFinset
        = (db.operations.map Op.key).toFinset
          ∪ ((page.ops.map Op.key).toFinset.filter
              (fun k => db.hasOpKey k = false)) := by
      ext k
      simp only [Finset.mem_union, Finset.mem_filter]
      constructor
      · rintro (hk | hk)
        · exact Or.inl hk
        · by_cases hdb : db.hasOpKey k = true
          · exact Or.inl ((hasOpKey_true_iff db k).mp hdb)
          · exact Or.inr ⟨hk, by simpa using hdb⟩
      · rintro (hk | ⟨hk, _⟩)
        · exact Or.inl hk
        · exact Or.inr hk
    have hn := hcounts.1
    rw [hchar.1, hunion, Finset.card_union_of_disjoint hdisj] at hn
    show (writeOps db page.ops).2.1 = _
    omega
  · have hdisj : Disjoint db.dids.toFinset
        ((page.ops.map Op.did).toFinset.filter
          (fun d => decide (d ∈ db.dids) = false)) := by
      rw [Finset.disjoint_right]
      intro d hd hd'
      rcases Finset.mem_filter.mp hd with ⟨_, hfalse⟩
      rw [decide_eq_true (List.mem_toFinset.mp hd')] at hfalse
      cases hfalse
    have hunion : db.dids.toFinset ∪ (page.ops.map Op.did).toFinset
        = db.dids.toFinset
          ∪ ((page.ops.map Op.did).toFinset.filter
              (fun d => decide (d ∈ db.dids) = false)) := by
      ext d
      simp only [Finset.mem_union, Finset.mem_filter]
      constructor
      · rintro (hd | hd)
        · exact Or.inl hd
        · by_cases hdb : d ∈ db.dids
          · exact Or.inl (List.mem_toFinset.mpr hdb)
          · exact Or.inr ⟨hd, by simpa using hdb⟩
      · rintro (hd | ⟨hd, _⟩)
        · exact Or.inl hd
        · exact Or.inr hd
    have hn := hcounts.2
    rw [hchar.2, hunion, Finset.card_union_of_disjoint hdisj] at hn
    show (writeOps db page.ops).2.2 = _
    omega

end Allegedly

namespace Allegedly

/-! ## C1 groundwork: dedup-pass and boundary-key characterizations -/

theorem dedupedOps_eq_filter (s : PageBoundaryState) (ops : List Op)
    (hsorted : CreatedSorted ops)
    (hge : ∀ op ∈ ops, s.last_at ≤ op.created_at) :
    dedupedOps s ops = ops.filter
      (fun op => !(decide (op.created_at = s.last_at)
                    && decide (op.key ∈ s.keys_at))) := by
  induction ops with
  | nil => rfl
  | cons a l ih =>
    have hcons := List.pairwise_cons.mp hsorted
    have hsl : CreatedSorted l := hcons.2
    have hgel : ∀ op ∈ l, s.last_at ≤ op.created_at :=
      fun op hop => hge op (List.mem_cons_of_mem a hop)
    have ihe := ih hsl hgel
    unfold dedupedOps at ihe ⊢
    by_cases ha : a.created_at = s.last_at
    · have hp1 : (fun op => decide (op.created_at = s.last_at)) a = true := by
        simp [ha]
      rw [List.takeWhile_cons, List.dropWhile_cons, if_pos hp1, if_pos hp1,
        List.filter_cons, List.filter_cons]
      by_cases hk : a.key ∈ s.keys_at
      · rw [if_neg (by simp [hk]), if_neg (by simp [ha, hk])]
        exact ihe
      · rw [if_pos (by simp [hk]), if_pos (by simp [ha, hk]),
          List.cons_append, ihe]
    · have hp1 : ¬ ((fun op => decide (op.created_at = s.last_at)) a = true) := by
        simp [ha]
      rw [List.takeWhile_cons, List.dropWhile_cons, if_neg hp1, if_neg hp1,
        List.filter_cons, if_pos (by simp [ha]), List.filter_nil,
        List.nil_append]
      have hgt : ∀ b ∈ l, s.last_at < b.created_at := by
        intro b hb
        have h1 := hge a (List.mem_cons_self a l)
        have h2 := hcons.1 b hb
        have h3 : s.last_at ≠ a.created_at := fun h => ha h.symm
        have h4 := lt_of_le_of_ne h1 h3
        linarith
      rw [List.filter_eq_self.mpr]
      intro b hb
      have hbgt := hgt b hb
      simp only [Bool.not_eq_true', Bool.and_eq_false_iff, decide_eq_false_iff_not]
      left
      intro hctr
      rw [hctr] at hbgt
      exact lt_irrefl _ hbgt

theorem le_getLast_of_sorted {l : List Op} {a : Op} (hs : CreatedSorted l)
    (h : l.getLast? = some a) : ∀ x ∈ l, x.created_at ≤ a.created_at := by
  obtain ⟨r, hr⟩ := reverse_eq_cons_of_getLast h
  intro x hx
  have hx' : x ∈ a :: r := by
    rw [← hr]
    exact List.mem_reverse.mpr hx
  have hrev : (a :: r).Pairwise (fun p q => q.created_at ≤ p.created_at) := by
    rw [← hr]
    exact List.pairwise_reverse.mpr hs
  rcases List.mem_cons.mp hx' with hx' | hx'
  · rw [hx']
  · exact (List.pairwise_cons.mp hrev).1 x hx'

theorem takeWhile_eq_filter_of_desc {t : Dt} {l : List Op}
    (hdesc : l.Pairwise (fun p q => q.created_at ≤ p.created_at))
    (hle : ∀ x ∈ l, x.created_at ≤ t) :
    l.takeWhile (fun op => decide (op.created_at = t))
      = l.filter (fun op => decide (op.created_at = t)) := by
  induction l with
  | nil => rfl
  | cons a r ih =>
    have hcons := List.pairwise_cons.mp hdesc
    by_cases ha : a.created_at = t
    · rw [List.takeWhile_cons, List.filter_cons, if_pos (by simp [ha]),
        if_pos (by simp [ha]),
        ih hcons.2 (fun x hx => hle x (List.mem_cons_of_mem a hx))]
    · rw [List.takeWhile_cons, List.filter_cons, if_neg (by simp [ha]),
        if_neg (by simp [ha]), List.filter_eq_nil_iff.mpr]
      intro b hb
      have h1 := hcons.1 b hb
      have h2 : a.created_at < t := lt_of_le_of_ne (hle a (List.mem_cons_self a r)) ha
      simp only [decide_eq_true_eq]
      intro hctr
      rw [hctr] at h1
      linarith

theorem trailingKeys_mem {t : Dt} {l : List Op} (hs : CreatedSorted l)
    (hle : ∀ x ∈ l, x.created_at ≤ t) (k : OpKey) :
    k ∈ trailingKeys t l ↔ ∃ op ∈ l, op.created_at = t ∧ op.key = k := by
  unfold trailingKeys
  rw [takeWhile_eq_filter_of_desc (List.pairwise_reverse.mpr hs)
    (fun x hx => hle x (List.mem_reverse.mp hx))]
  simp only [List.mem_map, List.mem_filter, List.mem_reverse,
    decide_eq_true_eq]
  constructor
  · rintro ⟨op, ⟨hop, hopt⟩, hopk⟩
    exact ⟨op, hop, hopt, hopk⟩
  · rintro ⟨op, hop, hopt, hopk⟩
    exact ⟨op, ⟨hop, hopt⟩, hopk⟩

theorem int_max?_eq_some_iff {l : List Int} {a : Int} :
    l.max? = some a ↔ a ∈ l ∧ ∀ b ∈ l, b ≤ a := by
  have hanti : Std.Antisymm ((· : Int) ≤ ·) := ⟨fun h1 h2 => le_antisymm h1 h2⟩
  exact List.max?_eq_some_iff (fun _ => le_refl _) (fun _ _ => max_choice _ _)
    (fun _ _ _ => max_le_iff)

theorem boundaryKeys_of_empty {p : ExportPage} (h : p.ops = []) :
    boundaryKeys p = [] := by
  unfold boundaryKeys pageMaxAt
  rw [h]
  rfl

theorem boundaryKeys_mem {p : ExportPage} {t : Dt}
    (hle : ∀ op ∈ p.ops, op.created_at ≤ t)
    (hatt : ∃ op ∈ p.ops, op.created_at = t) (k : OpKey) :
    k ∈ boundaryKeys p ↔ ∃ op ∈ p.ops, op.created_at = t ∧ op.key = k := by
  have hmax : pageMaxAt p = some t := by
    unfold pageMaxAt
    rw [int_max?_eq_some_iff]
    obtain ⟨op, hop, hopt⟩ := hatt
    refine ⟨?_, ?_⟩
    · rw [← hopt]
      exact List.mem_map_of_mem Op.created_at hop
    · intro b hb
      obtain ⟨q, hq, hqb⟩ := List.mem_map.mp hb
      rw [← hqb]
      exact hle q hq
  unfold boundaryKeys
  rw [hmax]
  simp only [List.mem_map, List.mem_filter, decide_eq_true_eq]
  constructor
  · rintro ⟨op, ⟨hop, hopt⟩, hopk⟩
    exact ⟨op, hop, hopt, hopk⟩
  · rintro ⟨op, hop, hopt, hopk⟩
    exact ⟨op, ⟨hop, hopt⟩, hopk⟩

theorem boundaryKeys_mem_src {p : ExportPage} {k : OpKey}
    (h : k ∈ boundaryKeys p) :
    ∃ t0, pageMaxAt p = some t0 ∧
      ∃ q ∈ p.ops, q.created_at = t0 ∧ q.key = k := by
  unfold boundaryKeys at h
  cases hmax : pageMaxAt p with
  | none =>
    rw [hmax] at h
    cases h
  | some t0 =>
    rw [hmax] at h
    obtain ⟨q, hq, hqk⟩ := List.mem_map.mp h
    rcases List.mem_filter.mp hq with ⟨hq1, hq2⟩
    exact ⟨t0, rfl, q, hq1, by simpa using hq2, hqk⟩

theorem BoundaryDupOnly.tail {p : ExportPage} {ps : List ExportPage}
    (h : BoundaryDupOnly (p :: ps)) : BoundaryDupOnly ps := by
  intro i j hi hj hij op hop op' hop' hkey
  have h2 := h (i + 1) (j + 1) (by simpa using Nat.succ_lt_succ hi)
    (by simpa using Nat.succ_lt_succ hj) (by omega) op hop op' hop' hkey
  exact ⟨by omega, h2.2.1, h2.2.2⟩

theorem pollPages_cons_none (p : ExportPage) (ps : List ExportPage) :
    pollPages none (p :: ps)
      = (pollPages (PageBoundaryState.new p) ps).map (p.ops ++ ·) := rfl

theorem pollPages_cons_some (s : PageBoundaryState) (p : ExportPage)
    (ps : List ExportPage) :
    pollPages (some s) (p :: ps)
      = match s.apply_to_next p with
        | none => none
        | some (s', p') => (pollPages (some s') ps).map (p'.ops ++ ·) := rfl

theorem specOutputAux_of_empty_prev {prev : ExportPage}
    (h : boundaryKeys prev = []) (ps : List ExportPage) :
    specOutputAux prev ps = specOutput ps := by
  cases ps with
  | nil => rfl
  | cons q qs =>
    show q.ops.filter _ ++ specOutputAux q qs = q.ops ++ specOutputAux q qs
    rw [h]
    congr 1
    rw [List.filter_eq_self.mpr]
    intro a _
    simp

end Allegedly

namespace Allegedly

/-- One `apply_to_next` step under the poller's running assumptions: it never
panics, emits exactly the dedup-surviving page, and the updated state's
`last_at`/`keys_at` are characterized against the raw page. -/
theorem apply_step (s : PageBoundaryState) (p : ExportPage)
    (hsorted : CreatedSorted p.ops)
    (hge : ∀ op ∈ p.ops, s.last_at ≤ op.created_at) :
    ∃ s', s.apply_to_next p = some (s', ⟨dedupedOps s p.ops⟩) ∧
      s.last_at ≤ s'.last_at ∧
      (∀ op ∈ p.ops, op.created_at ≤ s'.last_at) ∧
      (p.ops = [] → s' = s) ∧
      (p.ops ≠ [] → ∃ op ∈ p.ops, op.created_at = s'.last_at) ∧
      (∀ op ∈ p.ops, op.created_at = s'.last_at → op.key ∈ s'.keys_at) ∧
      (∀ k ∈ s'.keys_at,
        (∃ op ∈ p.ops, op.key = k ∧ op.created_at = s'.last_at) ∨
        (k ∈ s.keys_at ∧ s'.last_at = s.last_at)) := by
  have hfilter := dedupedOps_eq_filter s p.ops hsorted hge
  cases hlast : (dedupedOps s p.ops).getLast? with
  | none =>
    have hnil : dedupedOps s p.ops = [] := List.getLast?_eq_none_iff.mp hlast
    have hall : ∀ op ∈ p.ops,
        op.created_at = s.last_at ∧ op.key ∈ s.keys_at := by
      intro op hop
      have h0 : ¬ ((fun op => !(decide (op.created_at = s.last_at)
          && decide (op.key ∈ s.keys_at))) op = true) :=
        List.filter_eq_nil_iff.mp (hfilter ▸ hnil) op hop
      simp at h0
      exact h0
    refine ⟨s, ?_, le_refl _, ?_, fun _ => rfl, ?_, ?_, ?_⟩
    · unfold PageBoundaryState.apply_to_next
      rw [hlast]
    · intro op hop
      exact le_of_eq (hall op hop).1
    · intro hne
      obtain ⟨op, hop⟩ := List.exists_mem_of_ne_nil _ hne
      exact ⟨op, hop, (hall op hop).1⟩
    · intro op hop _
      exact (hall op hop).2
    · intro k hk
      exact Or.inr ⟨hk, rfl⟩
  | some lastOp =>
    have hmem_last : lastOp ∈ dedupedOps s p.ops := by
      obtain ⟨r, hr⟩ := reverse_eq_cons_of_getLast hlast
      have hmem : lastOp ∈ (dedupedOps s p.ops).reverse := by
        rw [hr]
        exact List.mem_cons_self _ _
      exact List.mem_reverse.mp hmem
    have hsub : ∀ x ∈ dedupedOps s p.ops, x ∈ p.ops := by
      intro x hx
      rw [hfilter] at hx
      exact List.mem_of_mem_filter hx
    have hge_last : s.last_at ≤ lastOp.created_at := hge lastOp (hsub _ hmem_last)
    have hkept_sorted : CreatedSorted (dedupedOps s p.ops) := by
      rw [hfilter]
      exact List.Pairwise.sublist (List.filter_sublist _) hsorted
    have hkept_le : ∀ x ∈ dedupedOps s p.ops,
        x.created_at ≤ lastOp.created_at :=
      le_getLast_of_sorted hkept_sorted hlast
    have hmemkept : ∀ op ∈ p.ops, op.created_at ≠ s.last_at →
        op ∈ dedupedOps s p.ops := by
      intro op hop hc
      rw [hfilter]
      exact List.mem_filter.mpr ⟨hop, by simp [hc]⟩
    have hmemkept2 : ∀ op ∈ p.ops, op.key ∉ s.keys_at →
        op ∈ dedupedOps s p.ops := by
      intro op hop hk
      rw [hfilter]
      exact List.mem_filter.mpr ⟨hop, by simp [hk]⟩
    have hkept_ne : dedupedOps s p.ops ≠ [] := by
      intro hctr
      rw [hctr] at hlast
      cases hlast
    have hpne : p.ops ≠ [] := by
      intro hctr
      apply hkept_ne
      rw [hfilter, hctr]
      rfl
    rcases lt_or_eq_of_le hge_last with hlt | heqq
    · have happly : s.apply_to_next p = some
          (capture_nth_last_at ⟨lastOp.created_at, [lastOp.key]⟩
            ⟨dedupedOps s p.ops⟩ lastOp.created_at 1,
           ⟨dedupedOps s p.ops⟩) := by
        unfold PageBoundaryState.apply_to_next
        rw [hlast]
        dsimp only
        rw [if_pos hlt]
      have hkeys : (capture_nth_last_at ⟨lastOp.created_at, [lastOp.key]⟩
          ⟨dedupedOps s p.ops⟩ lastOp.created_at 1).keys_at
          = trailingKeys lastOp.created_at (dedupedOps s p.ops) := by
        have h := capture_keys_eq hlast [] lastOp.created_at
        rw [List.nil_append, List.nil_append] at h
        exact h
      refine ⟨_, happly, le_of_lt hlt, ?_, ?_, ?_, ?_, ?_⟩
      · intro op hop
        rw [capture_last_at]
        by_cases hc : op.created_at = s.last_at
        · rw [hc]
          exact le_of_lt hlt
        · exact hkept_le op (hmemkept op hop hc)
      · intro hpe
        exact absurd hpe hpne
      · intro _
        exact ⟨lastOp, hsub _ hmem_last, by rw [capture_last_at]⟩
      · intro op hop hopt
        rw [capture_last_at] at hopt
        rw [hkeys]
        apply (trailingKeys_mem hkept_sorted hkept_le op.key).mpr
        refine ⟨op, ?_, hopt, rfl⟩
        apply hmemkept op hop
        rw [hopt]
        exact ne_of_gt hlt
      · intro k hk
        rw [hkeys] at hk
        obtain ⟨op, hopk, hopt, hopkey⟩ :=
          (trailingKeys_mem hkept_sorted hkept_le k).mp hk
        exact Or.inl ⟨op, hsub _ hopk, hopkey, by rw [capture_last_at]; exact hopt⟩
    · have hnlt : ¬ s.last_at < lastOp.created_at := by
        rw [heqq]
        exact lt_irrefl _
      have happly : s.apply_to_next p = some
          (capture_nth_last_at ⟨s.last_at, s.keys_at ++ [lastOp.key]⟩
            ⟨dedupedOps s p.ops⟩ lastOp.created_at 1,
           ⟨dedupedOps s p.ops⟩) := by
        unfold PageBoundaryState.apply_to_next
        rw [hlast]
        dsimp only
        rw [if_neg hnlt, if_pos heqq.symm]
      have hkeys := capture_keys_eq hlast s.keys_at s.last_at
      have hkept_all : ∀ x ∈ dedupedOps s p.ops, x.created_at = s.last_at := by
        intro x hx
        refine le_antisymm ?_ (hge x (hsub x hx))
        rw [heqq]
        exact hkept_le x hx
      have hp_all : ∀ op ∈ p.ops, op.created_at = s.last_at := by
        intro op hop
        by_cases hc : op.created_at = s.last_at
        · exact hc
        · exact absurd (hkept_all op (hmemkept op hop hc)) hc
      refine ⟨_, happly, ?_, ?_, ?_, ?_, ?_, ?_⟩
      · rw [capture_last_at]
      · intro op hop
        rw [capture_last_at]
        exact le_of_eq (hp_all op hop)
      · intro hpe
        exact absurd hpe hpne
      · intro _
        refine ⟨lastOp, hsub _ hmem_last, ?_⟩
        rw [capture_last_at]
        exact heqq.symm
      · intro op hop hopt
        rw [hkeys]
        by_cases hkmem : op.key ∈ s.keys_at
        · exact List.mem_append_left _ hkmem
        · apply List.mem_append_right
          apply (trailingKeys_mem hkept_sorted hkept_le op.key).mpr
          refine ⟨op, hmemkept2 op hop hkmem, ?_, rfl⟩
          rw [hp_all op hop, heqq]
      · intro k hk
        rw [hkeys] at hk
        rcases List.mem_append.mp hk with hk | hk
        · exact Or.inr ⟨hk, by rw [capture_last_at]⟩
        · obtain ⟨op, hopk, hopt, hopkey⟩ :=
            (trailingKeys_mem hkept_sorted hkept_le k).mp hk
          refine Or.inl ⟨op, hsub _ hopk, hopkey, ?_⟩
          rw [capture_last_at, heqq]
          exact hopt

end Allegedly

namespace Allegedly

theorem mem_pagesJoin {ps : List ExportPage} {page : ExportPage}
    (hpage : page ∈ ps) {op : Op} (hop : op ∈ page.ops) :
    op ∈ pagesJoin ps := by
  unfold pagesJoin
  rw [List.mem_flatten]
  exact ⟨page.ops, List.mem_map_of_mem _ hpage, hop⟩

/-- The poller's invariant-carrying induction: with the state's `last_at` a
lower bound on all future ops, `keys_at` sourced from the preceding page's
final instant (or never recurring), and only boundary re-emissions among the
remaining pages, folding `apply_to_next` emits exactly the spec-described
stream. -/
theorem pollPages_spec_aux (rest : List ExportPage) :
    ∀ (prev : ExportPage) (s : PageBoundaryState),
    (∀ page ∈ rest, ∀ op ∈ page.ops, s.last_at ≤ op.created_at) →
    CreatedSorted (pagesJoin rest) →
    (∀ k ∈ s.keys_at,
      (∃ op ∈ prev.ops, op.key = k ∧ op.created_at = s.last_at) ∨
      ∀ page ∈ rest, ∀ op ∈ page.ops, op.key ≠ k) →
    (∀ op ∈ prev.ops, op.created_at ≤ s.last_at) →
    (prev.ops ≠ [] → ∃ op ∈ prev.ops, op.created_at = s.last_at) →
    (∀ op ∈ prev.ops, op.created_at = s.last_at → op.key ∈ s.keys_at) →
    BoundaryDupOnly (prev :: rest) →
    pollPages (some s) rest = some (specOutputAux prev rest) := by
  induction rest with
  | nil =>
    intro prev s _ _ _ _ _ _ _
    rfl
  | cons p ps ih =>
    intro prev s ha hb hc hd hda hf he
    have hjoin : pagesJoin (p :: ps) = p.ops ++ pagesJoin ps := by
      simp [pagesJoin]
    rw [hjoin] at hb
    obtain ⟨hpsort, hrestsort, hcross⟩ := List.pairwise_append.mp hb
    have hgep : ∀ op ∈ p.ops, s.last_at ≤ op.created_at :=
      fun op hop => ha p (List.mem_cons_self p ps) op hop
    obtain ⟨s', happly, hmono, hple, hempty, hatt, hcomplete, hsrc⟩ :=
      apply_step s p hpsort hgep
    have he01 : ∀ q ∈ prev.ops, ∀ op ∈ p.ops, q.key = op.key →
        q.created_at = op.created_at := by
      intro q hq op hop hk
      have h2 := he 0 1 (by simp) (by simp) (by omega) q hq op hop hk
      exact h2.2.1
    have he0far : ∀ q ∈ prev.ops, ∀ page ∈ ps, ∀ op ∈ page.ops,
        q.key ≠ op.key := by
      intro q hq page hpage op hop hk
      obtain ⟨j, hj, hpg⟩ := List.mem_iff_getElem.mp hpage
      have hjlt : j + 2 < (prev :: p :: ps).length := by
        simp only [List.length_cons]
        omega
      have hop' : op ∈ (prev :: p :: ps)[j + 2].ops := by
        have hpg2 : (prev :: p :: ps)[j + 2] = ps[j] := by
          simp [List.getElem_cons_succ]
        rw [hpg2, hpg]
        exact hop
      have h2 := he 0 (j + 2) (by simp) hjlt (by omega) q hq op hop' hk
      exact absurd h2.1 (by omega)
    have hiff : ∀ op ∈ p.ops,
        ((op.created_at = s.last_at ∧ op.key ∈ s.keys_at)
          ↔ op.key ∈ boundaryKeys prev) := by
      intro op hop
      constructor
      · rintro ⟨hct, hkk⟩
        rcases hc op.key hkk with ⟨q, hq, hqk, hqt⟩ | hnone
        · have hprevne : prev.ops ≠ [] := by
            intro hctr
            rw [hctr] at hq
            cases hq
          exact (boundaryKeys_mem hd (hda hprevne) op.key).mpr ⟨q, hq, hqt, hqk⟩
        · exact absurd rfl (hnone p (List.mem_cons_self p ps) op hop)
      · intro hbk
        obtain ⟨t0, hmax, q, hq, hqt0, hqk⟩ := boundaryKeys_mem_src hbk
        unfold pageMaxAt at hmax
        have hmax' := int_max?_eq_some_iff.mp hmax
        have hprevne : prev.ops ≠ [] := by
          intro hctr
          rw [hctr] at hq
          cases hq
        have ht0le : t0 ≤ s.last_at := by
          obtain ⟨q2, hq2, hq2t⟩ := List.mem_map.mp hmax'.1
          rw [← hq2t]
          exact hd q2 hq2
        have hlet0 : s.last_at ≤ t0 := by
          obtain ⟨q0, hq0, hq0t⟩ := hda hprevne
          have hb0 := hmax'.2 q0.created_at (List.mem_map_of_mem _ hq0)
          rw [hq0t] at hb0
          exact hb0
        have ht0 : t0 = s.last_at := le_antisymm ht0le hlet0
        constructor
        · have hqop := he01 q hq op hop hqk
          rw [← hqop, hqt0, ht0]
        · rw [← hqk]
          exact hf q hq (by rw [hqt0, ht0])
    have hbool : ∀ op ∈ p.ops,
        (!(decide (op.created_at = s.last_at)
            && decide (op.key ∈ s.keys_at)))
          = (!decide (op.key ∈ boundaryKeys prev)) := by
      intro op hop
      have h1 : (decide (op.created_at = s.last_at)
            && decide (op.key ∈ s.keys_at))
          = decide (op.key ∈ boundaryKeys prev) := by
        rw [← Bool.decide_and]
        exact decide_eq_decide.mpr (hiff op hop)
      rw [h1]
    have hkept_spec : dedupedOps s p.ops
        = p.ops.filter (fun op => !decide (op.key ∈ boundaryKeys prev)) := by
      rw [dedupedOps_eq_filter s p.ops hpsort hgep]
      exact List.filter_congr hbool
    have ha' : ∀ page ∈ ps, ∀ op ∈ page.ops, s'.last_at ≤ op.created_at := by
      intro page hpage op hop
      by_cases hpe : p.ops = []
      · rw [hempty hpe]
        exact ha page (List.mem_cons_of_mem p hpage) op hop
      · obtain ⟨op0, hop0, hop0t⟩ := hatt hpe
        rw [← hop0t]
        exact hcross op0 hop0 op (mem_pagesJoin hpage hop)
    have hc' : ∀ k ∈ s'.keys_at,
        (∃ op ∈ p.ops, op.key = k ∧ op.created_at = s'.last_at) ∨
        ∀ page ∈ ps, ∀ op ∈ page.ops, op.key ≠ k := by
      intro k hk
      rcases hsrc k hk with h | ⟨hks, _⟩
      · exact Or.inl h
      · rcases hc k hks with ⟨q, hq, hqk, hqt⟩ | hnone
        · refine Or.inr ?_
          intro page hpage op hop hkeq
          exact he0far q hq page hpage op hop (by rw [hqk, ← hkeq])
        · exact Or.inr (fun page hpage op hop =>
            hnone page (List.mem_cons_of_mem p hpage) op hop)
    have hrec := ih p s' ha' hrestsort hc' hple hatt hcomplete he.tail
    rw [pollPages_cons_some, happly]
    dsimp only
    rw [hrec]
    simp only [Option.map_some']
    rw [hkept_spec]
    rfl

end Allegedly

namespace Allegedly

/-- **C1.** Boundary-dedup soundness: for pages whose concatenated ops are
non-decreasing in `createdAt` (within and across pages) and whose only
duplicate keys are boundary re-emissions, the poller's dedup
(`PageBoundaryState::new` on the first non-empty page, `apply_to_next` on
each later page) emits exactly the concatenation of the pages minus the
operations whose key appeared in the immediately preceding page at that
page's maximum `createdAt` — and never hits the dedup assertion. -/
theorem boundary_dedup_soundness (pages : List ExportPage)
    (hsorted : CreatedSorted (pagesJoin pages))
    (hdup : BoundaryDupOnly pages) :
    pollPages none pages = some (specOutput pages) := by
  induction pages with
  | nil => rfl
  | cons p ps ih =>
    have hjoin : pagesJoin (p :: ps) = p.ops ++ pagesJoin ps := by
      simp [pagesJoin]
    rw [hjoin] at hsorted
    obtain ⟨hpsort, hrestsort, hcross⟩ := List.pairwise_append.mp hsorted
    cases hlastp : p.ops.getLast? with
    | none =>
      have hpe : p.ops = [] := List.getLast?_eq_none_iff.mp hlastp
      have hnew : PageBoundaryState.new p = none := by
        unfold PageBoundaryState.new
        rw [hlastp]
        rfl
      rw [pollPages_cons_none, hnew, ih hrestsort hdup.tail]
      simp only [Option.map_some']
      show some (p.ops ++ specOutput ps) = some (p.ops ++ specOutputAux p ps)
      rw [specOutputAux_of_empty_prev (boundaryKeys_of_empty hpe)]
    | some lst =>
      have hlstmem : lst ∈ p.ops := by
        obtain ⟨r, hr⟩ := reverse_eq_cons_of_getLast hlastp
        have hmem : lst ∈ p.ops.reverse := by
          rw [hr]
          exact List.mem_cons_self _ _
        exact List.mem_reverse.mp hmem
      have hnew : PageBoundaryState.new p
          = some ⟨lst.created_at, trailingKeys lst.created_at p.ops⟩ := by
        rw [show p = (⟨p.ops⟩ : ExportPage) from rfl]
        exact new_eq_some hlastp
      have hdle : ∀ op ∈ p.ops, op.created_at ≤ lst.created_at :=
        le_getLast_of_sorted hpsort hlastp
      have haux := pollPages_spec_aux ps p
        ⟨lst.created_at, trailingKeys lst.created_at p.ops⟩
        (fun page hpage op hop => hcross lst hlstmem op (mem_pagesJoin hpage hop))
        hrestsort
        (fun k hk => Or.inl (by
          obtain ⟨op, hop, hopt, hopk⟩ := (trailingKeys_mem hpsort hdle k).mp hk
          exact ⟨op, hop, hopk, hopt⟩))
        hdle
        (fun _ => ⟨lst, hlstmem, rfl⟩)
        (fun op hop hopt =>
          (trailingKeys_mem hpsort hdle op.key).mpr ⟨op, hop, hopt, rfl⟩)
        hdup
      rw [pollPages_cons_none, hnew, haux]
      simp only [Option.map_some']
      rfl

/-- **C1 witness.** The soundness theorem at the source's
`test_add_new_next_time_with_dup` scenario: two pages with one boundary
re-emission, whose dedup output drops exactly that duplicate. -/
theorem boundary_dedup_soundness_witness :
    pollPages none [⟨[validOp]⟩, ⟨[validOp, nextOp]⟩]
      = some (specOutput [⟨[validOp]⟩, ⟨[validOp, nextOp]⟩]) := by
  apply boundary_dedup_soundness
  · unfold CreatedSorted pagesJoin
    decide
  · intro i j hi hj hij op hop op' hop' hkey
    simp only [List.length_cons, List.length_nil] at hi hj
    have hi0 : i = 0 := by omega
    have hj1 : j = 1 := by omega
    subst hi0
    subst hj1
    have hopv : op = validOp := by simpa using hop
    have hop'2 : op' = validOp ∨ op' = nextOp := by simpa using hop'
    subst hopv
    rcases hop'2 with h2 | h2
    · subst h2
      refine ⟨rfl, rfl, ?_⟩
      intro q hq
      have hqv : q = validOp := by simpa using hq
      subst hqv
      exact le_refl _
    · subst h2
      exact absurd hkey (by decide)

end Allegedly
